import Mathlib

/-!
Verification of `batch_approve_base_mt.py`, a script that, for many
independently-keyed accounts, concurrently grants an ERC20 spending
allowance (`approve`) and submits a purchase call (`buy`) against market
contracts on an EVM chain.

The Python source is shallowly embedded below.  External effects (RPC
queries, transaction submission, receipt polling) are modelled by
explicit per-call outcome values supplied through an environment, so
every function of the embedding is a pure, executable Lean function
mirroring the corresponding Python function.
-/

namespace Batch

/-! ## Configuration constants (top of the script) -/

def TOKEN_DECIMALS : ℕ := 6

def MAX_UINT256 : ℕ := 2 ^ 256 - 1

def ALLOWANCE_THRESHOLD : ℕ := MAX_UINT256 / 2

def DO_APPROVE : Bool := true

def USE_MAX_ALLOWANCE : Bool := true

def CHECK_ALLOWANCE : Bool := true

def DO_BUY : Bool := true

def BUY_MIN_OUTCOME_TOKENS : ℕ := 0

def SEND_RETRIES : ℕ := 2

def RETRY_SLEEP : ℕ := 5

/-! ## `allowance_enough`

`allowance_enough(token_contract, owner, spender)` performs one RPC read
of `allowance(owner, spender)`.  The read either yields an integer or
raises; the embedding receives that outcome as an `Option ℕ` and returns
the boolean the Python function returns (`except` branch returns
`False`, so the function never raises). -/

def allowance_enough (queryResult : Option ℕ) : Bool :=
  match queryResult with
  | some val => decide (ALLOWANCE_THRESHOLD ≤ val)
  | none => false

/-! ## `send_raw_with_retry`

The Python loop runs `attempt = 1 .. SEND_RETRIES`; each iteration calls
`w3.eth.send_raw_transaction(raw)` and returns its hash on success; on an
exception it remembers the error and sleeps `RETRY_SLEEP * attempt +
random.random()` seconds before the next iteration; when the loop ends it
re-raises the last error.  The embedding receives the outcome of each
attempt (`outcome i` for the `i`-th call) and the jitter drawn before the
`i`-th retry sleep, and additionally records the number of attempts made
and the sleep durations, so the claims about them can be stated. -/

structure SendTrace (ε α : Type) where
  result : Except (Option ε) α
  attemptsMade : ℕ
  sleeps : List ℚ
  deriving Repr

def sendLoop (outcome : ℕ → Except ε α) (jit : ℕ → ℚ) :
    ℕ → ℕ → Option ε → SendTrace ε α
  | attempt, 0, lastErr => ⟨Except.error lastErr, attempt - 1, []⟩
  | attempt, remaining + 1, _lastErr =>
    match outcome attempt with
    | Except.ok h => ⟨Except.ok h, attempt, []⟩
    | Except.error e =>
      let rest := sendLoop outcome jit (attempt + 1) remaining (some e)
      ⟨rest.result, rest.attemptsMade,
        ((RETRY_SLEEP : ℚ) * attempt + jit attempt) :: rest.sleeps⟩

def send_raw_with_retry (outcome : ℕ → Except ε α) (jit : ℕ → ℚ) : SendTrace ε α :=
  sendLoop outcome jit 1 SEND_RETRIES none

/-! ## `wallet_worker`

One worker owns one account.  It fetches the starting nonce (possibly
failing), then iterates the flattened `spenders_by_oracle` target list in
order.  Per target: a balance gate, an approval phase, and a buy phase.
All RPC outcomes a target's processing can observe are collected in a
`TargetEnv`; transactions for which the (retried) send returned a hash
are recorded in submission order, with the nonce and arguments the
Python code put into them. -/

/-- Python `amount = MAX_UINT256 if USE_MAX_ALLOWANCE else ALLOWANCE_THRESHOLD`. -/
def approveAmount : ℕ := if USE_MAX_ALLOWANCE then MAX_UINT256 else ALLOWANCE_THRESHOLD

/-- The argument triple of `market.functions.buy(...)` exactly as built at
the buy step: `buy(buy_amount_smallest, buy_outcome_index, buy_amount_smallest)`.
(`buy_min_tokens` is a parameter of `wallet_worker` but does not occur in
the call.) -/
def buy_call_args (buy_amount_smallest buy_outcome_index buy_min_tokens : ℕ) :
    ℕ × ℕ × ℕ :=
  (buy_amount_smallest, buy_outcome_index, buy_amount_smallest)

/-- A transaction whose raw send returned a hash, with the fields the
worker wrote into it. -/
inductive SentTx where
  | approve (nonce : ℕ) (spender : String) (amount : ℕ)
  | buy (nonce : ℕ) (market : String) (investmentAmount outcomeIndex minOutcomeTokensToBuy : ℕ)
  deriving Repr, DecidableEq

def SentTx.nonce : SentTx → ℕ
  | SentTx.approve n _ _ => n
  | SentTx.buy n _ _ _ _ => n

/-- Outcomes of the external calls made while processing one target.
`approveSend`/`buySend` are `some hash` when `send_raw_with_retry`
returned (any build/sign/gas-price/send exception in the surrounding
`try` is `none`); `receiptStatus` is `some status` when
`wait_for_transaction_receipt` returned, `none` when it raised
(timeout). -/
structure TargetEnv where
  market : String
  balance : ℕ
  allowanceQuery : Option ℕ
  approveSend : Option ℕ
  receiptStatus : Option ℕ
  buySend : Option ℕ
  deriving Repr, DecidableEq

structure WorkerState where
  nonce : ℕ
  sent_approve : ℕ
  sent_buy : ℕ
  skipped_approve : ℕ
  sent : List SentTx
  deriving Repr, DecidableEq

/-- The `# 1) 授权` block: allowance gate, then build/sign/send the
approval and wait for its receipt; the nonce and the approvals counter
advance only on a receipt with `status == 1`. -/
def approvePhase (s : WorkerState) (t : TargetEnv) : WorkerState :=
  if DO_APPROVE then
    if CHECK_ALLOWANCE && allowance_enough t.allowanceQuery then
      { s with skipped_approve := s.skipped_approve + 1 }
    else
      match t.approveSend with
      | none => s
      | some _txHash =>
        let s' := { s with sent := s.sent ++ [SentTx.approve s.nonce t.market approveAmount] }
        if t.receiptStatus = some 1 then
          { s' with nonce := s'.nonce + 1, sent_approve := s'.sent_approve + 1 }
        else s'
  else s

/-- The `# 2) buy 交易` block: build the call data with `buy_call_args`,
sign and send; the nonce advances immediately after a successful send,
with no receipt wait. -/
def buyPhase (buy_amount_smallest buy_outcome_index buy_min_tokens : ℕ)
    (s : WorkerState) (t : TargetEnv) : WorkerState :=
  if DO_BUY then
    match t.buySend with
    | none => s
    | some _txHash =>
      let args := buy_call_args buy_amount_smallest buy_outcome_index buy_min_tokens
      { s with
        sent := s.sent ++ [SentTx.buy s.nonce t.market args.1 args.2.1 args.2.2],
        nonce := s.nonce + 1,
        sent_buy := s.sent_buy + 1 }
  else s

/-- Processing of one target inside the worker's loop: the balance gate
(`continue` when the balance is below the investment amount), then the
approval phase, then the buy phase. -/
def walletStep (buy_amount_smallest buy_outcome_index buy_min_tokens : ℕ)
    (s : WorkerState) (t : TargetEnv) : WorkerState :=
  if t.balance < buy_amount_smallest then s
  else
    buyPhase buy_amount_smallest buy_outcome_index buy_min_tokens
      (approvePhase s t) t

/-- The whole of `wallet_worker`: on a nonce-fetch failure it returns
immediately with zero counters; otherwise it folds `walletStep` over the
flattened target list, starting from the fetched pending nonce. -/
def wallet_worker (buy_amount_smallest buy_outcome_index buy_min_tokens : ℕ)
    (nonceFetch : Option ℕ) (targets : List TargetEnv) : WorkerState :=
  match nonceFetch with
  | none => ⟨0, 0, 0, 0, []⟩
  | some n0 =>
    targets.foldl (walletStep buy_amount_smallest buy_outcome_index buy_min_tokens)
      ⟨n0, 0, 0, 0, []⟩

/-! ## `proxy_for_index`

`return None if not proxies else proxies[(i-1) % len(proxies)]`, where
`i` is the 1-based account index. -/

def proxy_for_index (proxies : List String) (i : ℕ) : Option String :=
  if proxies = [] then none
  else proxies.get? ((i - 1) % proxies.length)

/-! ## `_prepare_oracle_map_from_markets` -/

/-- One iteration of the accumulation loop: skip a falsy (empty)
address, append an address only when it is not already in `uniq`. -/
def prepareStep (uniq : List String) (a : String) : List String :=
  if a = "" then uniq else if a ∈ uniq then uniq else uniq ++ [a]

def prepare_uniq (market_addresses : List String) : List String :=
  market_addresses.foldl prepareStep []

/-- Python `return {0: uniq}`: a one-entry map with placeholder key 0. -/
def _prepare_oracle_map_from_markets (market_addresses : List String) :
    List (ℕ × List String) :=
  [(0, prepare_uniq market_addresses)]

/-- The flattened per-wallet iteration order that `wallet_worker`
receives from `run_for_markets` (`for oracle_id, spenders in
spenders_by_oracle.items(): for market_addr in spenders`). -/
def run_for_markets_spenders (market_addresses : List String) : List String :=
  (_prepare_oracle_map_from_markets market_addresses).foldl
    (fun acc p => acc ++ p.2) []

/-- Modelled from the spec side of the refinement stated in the claim:
drop the falsy entries, then remove duplicates keeping the first
occurrence of each address. -/
def dedupFirst : List String → List String
  | [] => []
  | a :: t => a :: dedupFirst (t.filter (fun x => x ≠ a))
termination_by l => l.length
decreasing_by
  simp only [List.length_cons]
  exact Nat.lt_succ_of_le (List.length_filter_le _ t)

/-! ## `load_private_keys`

Lines are modelled as character lists (the file iteration itself is
I/O).  Each line is stripped; blank lines are skipped; `"0x"` is
prepended when the stripped line does not already start with it. -/

def pyStrip (s : List Char) : List Char :=
  ((s.dropWhile Char.isWhitespace).reverse.dropWhile Char.isWhitespace).reverse

/-- One iteration of the key-loading loop. -/
def loadKeyStep (keys : List (List Char)) (line : List Char) : List (List Char) :=
  let s := pyStrip line
  if s = [] then keys
  else keys ++ [if List.isPrefixOf ['0', 'x'] s then s else ['0', 'x'] ++ s]

def load_private_keys (lines : List (List Char)) : List (List Char) :=
  lines.foldl loadKeyStep []

/-! ## `to_smallest_unit` and IEEE-754 binary64 arithmetic

`to_smallest_unit(amount_human, decimals) = int(amount_human * (10 **
decimals))` operates on a Python `float`, i.e. an IEEE-754 binary64
value.  Every value this program feeds through it is nonnegative and in
the normal range, so a float is modelled as a dyadic number `m * 2^e`
with `m : ℕ`, and rounding is round-to-nearest, ties to even, at 53
significant bits. -/

structure PyFloat where
  m : ℕ
  e : ℤ
  deriving Repr, DecidableEq

/-- Number of binary digits of `n` (0 for 0), computed with structural
fuel (`n` halves each step, and its bit length is at most `n` for
`n ≥ 1`, so fuel `n` suffices). -/
def blenAux : ℕ → ℕ → ℕ
  | 0, _ => 0
  | fuel + 1, m => if m = 0 then 0 else blenAux fuel (m / 2) + 1

def blen (n : ℕ) : ℕ := blenAux n n

/-- Round the exact dyadic value `m * 2^e` to 53 significant bits,
round-to-nearest, ties to even. -/
def roundDyadic (m : ℕ) (e : ℤ) : PyFloat :=
  let b := blen m
  if b ≤ 53 then ⟨m, e⟩
  else
    let shift := b - 53
    let q := m / 2 ^ shift
    let r := m % 2 ^ shift
    let half := 2 ^ (shift - 1)
    let m' := if r < half then q
              else if half < r then q + 1
              else if q % 2 = 0 then q else q + 1
    ⟨m', e + shift⟩

/-- Numerator/denominator of `num/den` scaled by `2^s`, as a division
with remainder: returns `(q, r, D)` with `num * 2^s = q * D + r`,
`D` the (scaled) denominator. -/
def scaledDiv (num den : ℕ) (s : ℤ) : ℕ × ℕ × ℕ :=
  let N := if 0 ≤ s then num * 2 ^ s.toNat else num
  let D := if 0 ≤ s then den else den * 2 ^ (-s).toNat
  (N / D, N % D, D)

/-- One adjustment of the scale towards `⌊num * 2^s / den⌋ ∈ [2^52, 2^53)`. -/
def adjustScale (num den : ℕ) (s : ℤ) : ℤ :=
  let q := (scaledDiv num den s).1
  if q < 2 ^ 52 then s + 1 else if 2 ^ 53 ≤ q then s - 1 else s

/-- Round the exact rational `num/den` (`num, den > 0`) to the nearest
binary64 value, ties to even: scale into the 53-bit window, divide with
remainder, and round the quotient on the remainder. -/
def roundRat (num den : ℕ) : PyFloat :=
  if num = 0 then ⟨0, 0⟩
  else
    let s0 : ℤ := 53 + (blen den : ℤ) - (blen num : ℤ)
    let s := adjustScale num den (adjustScale num den s0)
    let qrD := scaledDiv num den s
    let q := qrD.1
    let r := qrD.2.1
    let D := qrD.2.2
    let m' := if 2 * r < D then q
              else if D < 2 * r then q + 1
              else if q % 2 = 0 then q else q + 1
    ⟨m', -s⟩

/-- The binary64 value denoted by the literal `0.1`. -/
def pyLit_0_1 : PyFloat := roundRat 1 10

/-- Conversion of a Python `int` operand to `float`, as performed by
`float * int`. -/
def floatOfNat (n : ℕ) : PyFloat := roundDyadic n 0

/-- IEEE-754 binary64 multiplication (nonnegative operands): the exact
product rounded to 53 bits. -/
def pyfmul (a b : PyFloat) : PyFloat := roundDyadic (a.m * b.m) (a.e + b.e)

/-- Python `int()` on a nonnegative float: truncation. -/
def pyTrunc (x : PyFloat) : ℕ :=
  if 0 ≤ x.e then x.m * 2 ^ x.e.toNat else x.m / 2 ^ (-x.e).toNat

def to_smallest_unit (amount_human : PyFloat) (decimals : ℕ) : ℕ :=
  pyTrunc (pyfmul amount_human (floatOfNat (10 ^ decimals)))

/-! ## Theorems -/

/-- C4: for every owner/spender pair, the allowance check returns true
iff the on-chain allowance read is at or above the configured threshold
of half the maximum unsigned 256-bit value, and on any query failure it
returns false (and, being a total function of the query outcome, never
raises). -/
theorem allowance_enough_spec :
    (∀ val : ℕ, allowance_enough (some val) = true ↔ ALLOWANCE_THRESHOLD ≤ val) ∧
    allowance_enough none = false ∧
    ALLOWANCE_THRESHOLD = (2 ^ 256 - 1) / 2 ∧
    MAX_UINT256 = 2 ^ 256 - 1 := by
  refine ⟨fun val => ?_, rfl, rfl, rfl⟩
  simp [allowance_enough]

theorem allowance_enough_spec_witness :
    allowance_enough (some MAX_UINT256) = true ∧ allowance_enough none = false :=
  ⟨(allowance_enough_spec.1 MAX_UINT256).mpr (by decide), allowance_enough_spec.2.1⟩

set_option maxRecDepth 8000 in
/-- C7: `to_smallest_unit` applied to the binary64 value of the literal
`0.1` with 6 decimals yields exactly 100000, and with 18 decimals yields
exactly 100000000000000000. -/
theorem to_smallest_unit_tenth :
    to_smallest_unit pyLit_0_1 6 = 100000 ∧
    to_smallest_unit pyLit_0_1 18 = 100000000000000000 := by
  exact ⟨by decide, by decide⟩

/-- C8: proxy assignment is deterministic round-robin by 1-based account
position: `proxies[(i-1) mod len(proxies)]` when the proxy list is
non-empty, `None` when it is empty; with 2 proxies and 5 accounts the
assignment sequence is `[p0, p1, p0, p1, p0]`. -/
theorem proxy_for_index_spec (ps : List String) (i : ℕ) (p0 p1 : String) :
    proxy_for_index ps i =
      (if ps = [] then none else ps.get? ((i - 1) % ps.length)) ∧
    proxy_for_index [] i = none ∧
    [1, 2, 3, 4, 5].map (proxy_for_index [p0, p1]) =
      [some p0, some p1, some p0, some p1, some p0] := by
  refine ⟨rfl, rfl, ?_⟩
  simp [proxy_for_index]

theorem proxy_for_index_spec_witness :
    [1, 2, 3, 4, 5].map (proxy_for_index ["p0", "p1"]) =
      [some "p0", some "p1", some "p0", some "p1", some "p0"] :=
  (proxy_for_index_spec ["p0", "p1"] 1 "p0" "p1").2.2

/-- C1 (evaluation at the failing input): the third argument of the `buy`
call is `buy_amount_smallest`, not the caller-supplied `buy_min_tokens`.
With `buy_amount_smallest = 100000` and `buy_min_tokens = 0` (the
defaults: investment 0.1 at 6 decimals, `BUY_MIN_OUTCOME_TOKENS = 0`), a
worker whose one target has sufficient balance and allowance and a
successful buy send submits exactly one buy carrying
`minOutcomeTokensToBuy = 100000 ≠ 0`. -/
theorem buy_min_tokens_ignored :
    buy_call_args 100000 0 0 = (100000, 0, 100000) ∧
    (buy_call_args 100000 0 0).2.2 ≠ BUY_MIN_OUTCOME_TOKENS ∧
    (wallet_worker 100000 0 0 (some 5)
        [⟨"m", 100000, some MAX_UINT256, none, none, some 2⟩]).sent =
      [SentTx.buy 5 "m" 100000 0 100000] := by
  refine ⟨rfl, by decide, by decide⟩

/-- C6: for every target whose token-balance read is strictly below the
required investment amount, the worker issues neither an approve nor a
buy (the submitted-transaction trace is unchanged), none of the three
counters change, the nonce is unchanged, and iteration continues with
the next target. -/
theorem balance_gate_skips (amt oi mt : ℕ) (s : WorkerState) (t : TargetEnv)
    (ts : List TargetEnv) (h : t.balance < amt) :
    walletStep amt oi mt s t = s ∧
    (t :: ts).foldl (walletStep amt oi mt) s = ts.foldl (walletStep amt oi mt) s := by
  have h1 : walletStep amt oi mt s t = s := by simp [walletStep, h]
  exact ⟨h1, by simp [List.foldl_cons, h1]⟩

theorem balance_gate_skips_witness :
    walletStep 100000 0 0 ⟨3, 0, 0, 0, []⟩ ⟨"m", 5, none, none, none, none⟩ =
      ⟨3, 0, 0, 0, []⟩ :=
  (balance_gate_skips 100000 0 0 ⟨3, 0, 0, 0, []⟩ ⟨"m", 5, none, none, none, none⟩ []
    (by decide)).1

/-- C5: for every signed payload, the submission routine makes at most
`SEND_RETRIES = 2` attempts; a first-attempt success sends once with no
waiting; after a failed attempt it waits `RETRY_SLEEP * attempt_index +
jitter` before retrying; after exhausting both attempts it surfaces the
last error as the call's outcome — and that outcome is fatal only to the
step that made it: a target on which both the approve and the buy
submission raise leaves the worker's state unchanged, so the loop goes
on with the account's remaining targets. -/
theorem send_raw_with_retry_spec (outcome : ℕ → Except ε α) (jit : ℕ → ℚ)
    (amt oi mt : ℕ) (s : WorkerState) (t : TargetEnv) :
    (send_raw_with_retry outcome jit).attemptsMade ≤ SEND_RETRIES ∧
    (∀ h, outcome 1 = Except.ok h →
      send_raw_with_retry outcome jit = ⟨Except.ok h, 1, []⟩) ∧
    (∀ e1 h, outcome 1 = Except.error e1 → outcome 2 = Except.ok h →
      send_raw_with_retry outcome jit =
        ⟨Except.ok h, 2, [(RETRY_SLEEP : ℚ) * 1 + jit 1]⟩) ∧
    (∀ e1 e2, outcome 1 = Except.error e1 → outcome 2 = Except.error e2 →
      send_raw_with_retry outcome jit =
        ⟨Except.error (some e2), 2,
          [(RETRY_SLEEP : ℚ) * 1 + jit 1, (RETRY_SLEEP : ℚ) * 2 + jit 2]⟩) ∧
    (t.approveSend = none → t.buySend = none →
      allowance_enough t.allowanceQuery = false →
      walletStep amt oi mt s t = s) := by
  refine ⟨?_, ?_, ?_, ?_, ?_⟩
  · rcases h1 : outcome 1 with e1 | v1
    · rcases h2 : outcome 2 with e2 | v2 <;>
        simp [send_raw_with_retry, SEND_RETRIES, sendLoop, h1, h2]
    · simp [send_raw_with_retry, SEND_RETRIES, sendLoop, h1]
  · intro h hh
    simp [send_raw_with_retry, SEND_RETRIES, sendLoop, hh]
  · intro e1 h h1 h2
    simp [send_raw_with_retry, SEND_RETRIES, sendLoop, h1, h2]
  · intro e1 e2 h1 h2
    simp [send_raw_with_retry, SEND_RETRIES, sendLoop, h1, h2]
  · intro ha hb hal
    by_cases hbal : t.balance < amt
    · simp [walletStep, hbal]
    · simp [walletStep, hbal, buyPhase, DO_BUY, hb, approvePhase, DO_APPROVE,
        CHECK_ALLOWANCE, hal, ha]

theorem send_raw_with_retry_spec_witness :
    (send_raw_with_retry (fun _ => (Except.error 0 : Except ℕ ℕ)) (fun _ => 0)).attemptsMade
        ≤ SEND_RETRIES ∧
    send_raw_with_retry (fun _ => (Except.error 0 : Except ℕ ℕ)) (fun _ => 0) =
      ⟨Except.error (some 0), 2, [5, 10]⟩ ∧
    walletStep 10 0 0 ⟨2, 0, 0, 0, []⟩ ⟨"m", 10, none, none, none, none⟩ =
      ⟨2, 0, 0, 0, []⟩ := by
  have H := send_raw_with_retry_spec (fun _ => (Except.error 0 : Except ℕ ℕ)) (fun _ => 0)
    10 0 0 ⟨2, 0, 0, 0, []⟩ ⟨"m", 10, none, none, none, none⟩
  refine ⟨H.1, ?_, H.2.2.2.2 rfl rfl rfl⟩
  have h := H.2.2.2.1 0 0 rfl rfl
  rw [h]
  norm_num [RETRY_SLEEP]

/-- C3: in the approval step (approval actually attempted: sufficient
balance, allowance gate not skipping), the nonce is advanced and the
approvals-sent counter incremented exactly when the send returned a hash
and the receipt reports `status == 1`; on a submission failure, a
failed-status receipt, or a receipt timeout, both are left unchanged,
and in all cases the worker proceeds to the buy step for the same
target. -/
theorem approve_receipt_gates_nonce (amt oi mt : ℕ) (s : WorkerState) (t : TargetEnv)
    (hb : ¬ t.balance < amt)
    (hal : allowance_enough t.allowanceQuery = false) :
    (∀ h, t.approveSend = some h → t.receiptStatus = some 1 →
      (approvePhase s t).nonce = s.nonce + 1 ∧
      (approvePhase s t).sent_approve = s.sent_approve + 1) ∧
    (t.approveSend = none ∨ t.receiptStatus ≠ some 1 →
      (approvePhase s t).nonce = s.nonce ∧
      (approvePhase s t).sent_approve = s.sent_approve) ∧
    walletStep amt oi mt s t =
      buyPhase amt oi mt (approvePhase s t) t := by
  refine ⟨?_, ?_, by simp [walletStep, hb]⟩
  · intro h hsend hrec
    simp [approvePhase, DO_APPROVE, CHECK_ALLOWANCE, hal, hsend, hrec]
  · intro hfail
    rcases hfail with hsend | hrec
    · simp [approvePhase, DO_APPROVE, CHECK_ALLOWANCE, hal, hsend]
    · rcases hsend : t.approveSend with _ | h
      · simp [approvePhase, DO_APPROVE, CHECK_ALLOWANCE, hal, hsend]
      · simp [approvePhase, DO_APPROVE, CHECK_ALLOWANCE, hal, hsend, hrec]

theorem approve_receipt_gates_nonce_witness :
    (approvePhase ⟨3, 0, 0, 0, []⟩ ⟨"m", 100, none, some 9, some 1, none⟩).nonce = 4 ∧
    (approvePhase ⟨3, 0, 0, 0, []⟩ ⟨"m", 100, none, some 9, some 1, none⟩).sent_approve = 1 :=
  (approve_receipt_gates_nonce 50 0 0 ⟨3, 0, 0, 0, []⟩
    ⟨"m", 100, none, some 9, some 1, none⟩ (by decide) (by decide)).1 9 rfl rfl

/-! ### Nonce-sequence lemmas (for the monotonicity analysis) -/

lemma approvePhase_cases (s : WorkerState) (t : TargetEnv) :
    ((approvePhase s t).sent = s.sent ∧ (approvePhase s t).nonce = s.nonce) ∨
    ((approvePhase s t).sent =
        s.sent ++ [SentTx.approve s.nonce t.market approveAmount] ∧
      ((approvePhase s t).nonce = s.nonce ∨ (approvePhase s t).nonce = s.nonce + 1)) := by
  by_cases hal : allowance_enough t.allowanceQuery = true
  · left; simp [approvePhase, DO_APPROVE, CHECK_ALLOWANCE, hal]
  · rcases hs : t.approveSend with _ | h
    · left; simp [approvePhase, DO_APPROVE, CHECK_ALLOWANCE, hal, hs]
    · by_cases hr : t.receiptStatus = some 1
      · right
        simp [approvePhase, DO_APPROVE, CHECK_ALLOWANCE, hal, hs, hr]
      · right
        simp [approvePhase, DO_APPROVE, CHECK_ALLOWANCE, hal, hs, hr]

lemma approvePhase_cases_confirmed (s : WorkerState) (t : TargetEnv)
    (hc : t.approveSend ≠ none → t.receiptStatus = some 1) :
    ((approvePhase s t).sent = s.sent ∧ (approvePhase s t).nonce = s.nonce) ∨
    ((approvePhase s t).sent =
        s.sent ++ [SentTx.approve s.nonce t.market approveAmount] ∧
      (approvePhase s t).nonce = s.nonce + 1) := by
  by_cases hal : allowance_enough t.allowanceQuery = true
  · left; simp [approvePhase, DO_APPROVE, CHECK_ALLOWANCE, hal]
  · rcases hs : t.approveSend with _ | h
    · left; simp [approvePhase, DO_APPROVE, CHECK_ALLOWANCE, hal, hs]
    · have hr : t.receiptStatus = some 1 := hc (by simp [hs])
      right
      simp [approvePhase, DO_APPROVE, CHECK_ALLOWANCE, hal, hs, hr]

lemma buyPhase_cases (amt oi mt : ℕ) (s : WorkerState) (t : TargetEnv) :
    buyPhase amt oi mt s t = s ∨
    ((buyPhase amt oi mt s t).sent =
        s.sent ++ [SentTx.buy s.nonce t.market amt oi amt] ∧
      (buyPhase amt oi mt s t).nonce = s.nonce + 1) := by
  rcases hs : t.buySend with _ | h
  · left; simp [buyPhase, DO_BUY, hs]
  · right; simp [buyPhase, DO_BUY, buy_call_args, hs]

lemma nonce_inv_append {l : List SentTx} {n n' : ℕ} (tx : SentTx)
    (h1 : List.Pairwise (· ≤ ·) (l.map SentTx.nonce))
    (h2 : ∀ x ∈ l.map SentTx.nonce, x ≤ n)
    (htx : tx.nonce = n) (hn : n ≤ n') :
    List.Pairwise (· ≤ ·) ((l ++ [tx]).map SentTx.nonce) ∧
    ∀ x ∈ (l ++ [tx]).map SentTx.nonce, x ≤ n' := by
  rw [List.map_append]
  constructor
  · rw [List.pairwise_append]
    refine ⟨h1, by simp, ?_⟩
    intro a ha b hb
    simp at hb
    rw [hb, htx]
    exact h2 a ha
  · intro x hx
    rcases List.mem_append.1 hx with hx | hx
    · exact le_trans (h2 x hx) hn
    · simp at hx
      rw [hx, htx]
      exact hn

lemma nonce_inv_append_lt {l : List SentTx} {n n' : ℕ} (tx : SentTx)
    (h1 : List.Pairwise (· < ·) (l.map SentTx.nonce))
    (h2 : ∀ x ∈ l.map SentTx.nonce, x < n)
    (htx : tx.nonce = n) (hn : n < n') :
    List.Pairwise (· < ·) ((l ++ [tx]).map SentTx.nonce) ∧
    ∀ x ∈ (l ++ [tx]).map SentTx.nonce, x < n' := by
  rw [List.map_append]
  constructor
  · rw [List.pairwise_append]
    refine ⟨h1, by simp, ?_⟩
    intro a ha b hb
    simp at hb
    rw [hb, htx]
    exact h2 a ha
  · intro x hx
    rcases List.mem_append.1 hx with hx | hx
    · exact lt_trans (h2 x hx) hn
    · simp at hx
      rw [hx, htx]
      exact hn

lemma walletStep_nonce_inv (amt oi mt : ℕ) (s : WorkerState) (t : TargetEnv)
    (h1 : List.Pairwise (· ≤ ·) (s.sent.map SentTx.nonce))
    (h2 : ∀ x ∈ s.sent.map SentTx.nonce, x ≤ s.nonce) :
    List.Pairwise (· ≤ ·) ((walletStep amt oi mt s t).sent.map SentTx.nonce) ∧
    ∀ x ∈ (walletStep amt oi mt s t).sent.map SentTx.nonce,
      x ≤ (walletStep amt oi mt s t).nonce := by
  by_cases hb : t.balance < amt
  · rw [show walletStep amt oi mt s t = s from by simp [walletStep, hb]]
    exact ⟨h1, h2⟩
  rw [show walletStep amt oi mt s t = buyPhase amt oi mt (approvePhase s t) t from by
    simp [walletStep, hb]]
  have hmid : List.Pairwise (· ≤ ·) ((approvePhase s t).sent.map SentTx.nonce) ∧
      ∀ x ∈ (approvePhase s t).sent.map SentTx.nonce, x ≤ (approvePhase s t).nonce := by
    rcases approvePhase_cases s t with ⟨he, hn⟩ | ⟨he, hn | hn⟩
    · rw [he, hn]; exact ⟨h1, h2⟩
    · rw [he, hn]
      exact nonce_inv_append _ h1 h2 rfl le_rfl
    · rw [he, hn]
      exact nonce_inv_append _ h1 h2 rfl (Nat.le_succ _)
  obtain ⟨g1, g2⟩ := hmid
  rcases buyPhase_cases amt oi mt (approvePhase s t) t with hid | ⟨he, hn⟩
  · rw [hid]; exact ⟨g1, g2⟩
  · rw [he, hn]
    exact nonce_inv_append _ g1 g2 rfl (Nat.le_succ _)

lemma walletStep_nonce_inv_lt (amt oi mt : ℕ) (s : WorkerState) (t : TargetEnv)
    (hc : t.approveSend ≠ none → t.receiptStatus = some 1)
    (h1 : List.Pairwise (· < ·) (s.sent.map SentTx.nonce))
    (h2 : ∀ x ∈ s.sent.map SentTx.nonce, x < s.nonce) :
    List.Pairwise (· < ·) ((walletStep amt oi mt s t).sent.map SentTx.nonce) ∧
    ∀ x ∈ (walletStep amt oi mt s t).sent.map SentTx.nonce,
      x < (walletStep amt oi mt s t).nonce := by
  by_cases hb : t.balance < amt
  · rw [show walletStep amt oi mt s t = s from by simp [walletStep, hb]]
    exact ⟨h1, h2⟩
  rw [show walletStep amt oi mt s t = buyPhase amt oi mt (approvePhase s t) t from by
    simp [walletStep, hb]]
  have hmid : List.Pairwise (· < ·) ((approvePhase s t).sent.map SentTx.nonce) ∧
      ∀ x ∈ (approvePhase s t).sent.map SentTx.nonce, x < (approvePhase s t).nonce := by
    rcases approvePhase_cases_confirmed s t hc with ⟨he, hn⟩ | ⟨he, hn⟩
    · rw [he, hn]; exact ⟨h1, h2⟩
    · rw [he, hn]
      exact nonce_inv_append_lt _ h1 h2 rfl (Nat.lt_succ_self _)
  obtain ⟨g1, g2⟩ := hmid
  rcases buyPhase_cases amt oi mt (approvePhase s t) t with hid | ⟨he, hn⟩
  · rw [hid]; exact ⟨g1, g2⟩
  · rw [he, hn]
    exact nonce_inv_append_lt _ g1 g2 rfl (Nat.lt_succ_self _)

lemma foldl_nonce_inv (amt oi mt : ℕ) :
    ∀ (ts : List TargetEnv) (s : WorkerState),
      List.Pairwise (· ≤ ·) (s.sent.map SentTx.nonce) →
      (∀ x ∈ s.sent.map SentTx.nonce, x ≤ s.nonce) →
      List.Pairwise (· ≤ ·)
          ((ts.foldl (walletStep amt oi mt) s).sent.map SentTx.nonce) ∧
        ∀ x ∈ (ts.foldl (walletStep amt oi mt) s).sent.map SentTx.nonce,
          x ≤ (ts.foldl (walletStep amt oi mt) s).nonce
  | [], s, h1, h2 => ⟨h1, h2⟩
  | t :: ts, s, h1, h2 => by
    rw [List.foldl_cons]
    obtain ⟨g1, g2⟩ := walletStep_nonce_inv amt oi mt s t h1 h2
    exact foldl_nonce_inv amt oi mt ts _ g1 g2

lemma foldl_nonce_inv_lt (amt oi mt : ℕ) :
    ∀ (ts : List TargetEnv) (s : WorkerState),
      (∀ t ∈ ts, t.approveSend ≠ none → t.receiptStatus = some 1) →
      List.Pairwise (· < ·) (s.sent.map SentTx.nonce) →
      (∀ x ∈ s.sent.map SentTx.nonce, x < s.nonce) →
      List.Pairwise (· < ·)
          ((ts.foldl (walletStep amt oi mt) s).sent.map SentTx.nonce) ∧
        ∀ x ∈ (ts.foldl (walletStep amt oi mt) s).sent.map SentTx.nonce,
          x < (ts.foldl (walletStep amt oi mt) s).nonce
  | [], s, _, h1, h2 => ⟨h1, h2⟩
  | t :: ts, s, hc, h1, h2 => by
    rw [List.foldl_cons]
    obtain ⟨g1, g2⟩ :=
      walletStep_nonce_inv_lt amt oi mt s t (hc t (by simp)) h1 h2
    exact foldl_nonce_inv_lt amt oi mt ts _ (fun u hu => hc u (by simp [hu])) g1 g2

/-- C2 (counterexample to the claim as stated): with one target whose
approval send returns a hash but whose receipt wait times out, the
worker submits the approve at nonce 7 and then the buy at the same
nonce 7 — the sent-nonce sequence [7, 7] is neither strictly increasing
nor repeat-free. -/
theorem wallet_worker_nonce_reuse_cex :
    (wallet_worker 100000 0 0 (some 7)
        [⟨"m", 100000, none, some 1, none, some 2⟩]).sent.map SentTx.nonce = [7, 7] ∧
    ¬ List.Pairwise (· < ·)
        ((wallet_worker 100000 0 0 (some 7)
          [⟨"m", 100000, none, some 1, none, some 2⟩]).sent.map SentTx.nonce) ∧
    ¬ ((wallet_worker 100000 0 0 (some 7)
          [⟨"m", 100000, none, some 1, none, some 2⟩]).sent.map SentTx.nonce).Nodup := by
  have h : (wallet_worker 100000 0 0 (some 7)
      [⟨"m", 100000, none, some 1, none, some 2⟩]).sent.map SentTx.nonce = [7, 7] := by
    decide
  refine ⟨h, ?_, ?_⟩
  · rw [h]
    decide
  · rw [h]
    decide

/-- C2 (amended): within one run of `wallet_worker`, the nonce sequence
of the transactions actually sent is always nondecreasing, and it is
strictly increasing with no value used twice provided every approval
whose send returned a hash obtained a confirmed-success receipt; a
sent-but-unconfirmed (timed out or failed-status) approval is the one
case in which the following transaction reuses its nonce. -/
theorem wallet_worker_nonce_monotone (amt oi mt : ℕ) (nf : Option ℕ)
    (ts : List TargetEnv) :
    List.Pairwise (· ≤ ·) ((wallet_worker amt oi mt nf ts).sent.map SentTx.nonce) ∧
    ((∀ t ∈ ts, t.approveSend ≠ none → t.receiptStatus = some 1) →
      List.Pairwise (· < ·) ((wallet_worker amt oi mt nf ts).sent.map SentTx.nonce)) := by
  rcases nf with _ | n0
  · constructor
    · simp [wallet_worker]
    · intro _; simp [wallet_worker]
  · constructor
    · exact (foldl_nonce_inv amt oi mt ts ⟨n0, 0, 0, 0, []⟩ (by simp) (by simp)).1
    · intro hc
      exact (foldl_nonce_inv_lt amt oi mt ts ⟨n0, 0, 0, 0, []⟩ hc (by simp) (by simp)).1

theorem wallet_worker_nonce_monotone_witness :
    List.Pairwise (· < ·)
      ((wallet_worker 100000 0 0 (some 3)
        [⟨"m", 100000, none, some 1, some 1, some 2⟩]).sent.map SentTx.nonce) :=
  (wallet_worker_nonce_monotone 100000 0 0 (some 3)
    [⟨"m", 100000, none, some 1, some 1, some 2⟩]).2 (by decide)

/-! ### Deduplication lemmas -/

lemma mem_dedupFirst (l : List String) (a : String) :
    a ∈ dedupFirst l ↔ a ∈ l := by
  induction l using dedupFirst.induct with
  | case1 => simp [dedupFirst]
  | case2 b t ih =>
    simp only [dedupFirst, List.mem_cons, ih, List.mem_filter, decide_eq_true_eq]
    by_cases hab : a = b
    · simp [hab]
    · simp [hab]

lemma nodup_dedupFirst (l : List String) : (dedupFirst l).Nodup := by
  induction l using dedupFirst.induct with
  | case1 => simp [dedupFirst]
  | case2 b t ih =>
    simp only [dedupFirst, List.nodup_cons]
    refine ⟨?_, ih⟩
    intro hmem
    rw [mem_dedupFirst] at hmem
    have := (List.mem_filter.1 hmem).2
    simp at this

lemma prepare_uniq_go :
    ∀ (ms : List String) (acc : List String),
      ms.foldl prepareStep acc =
        acc ++ dedupFirst (ms.filter (fun a => a ≠ "" ∧ a ∉ acc))
  | [], acc => by simp [dedupFirst]
  | a :: t, acc => by
    rw [List.foldl_cons, List.filter_cons]
    by_cases h1 : a = ""
    · have hstep : prepareStep acc a = acc := by simp [prepareStep, h1]
      have hpa : (decide (a ≠ "" ∧ a ∉ acc)) = false := by simp [h1]
      rw [hstep, hpa, prepare_uniq_go t acc]
      simp
    · by_cases h2 : a ∈ acc
      · have hstep : prepareStep acc a = acc := by simp [prepareStep, h1, h2]
        have hpa : (decide (a ≠ "" ∧ a ∉ acc)) = false := by simp [h1, h2]
        rw [hstep, hpa, prepare_uniq_go t acc]
        simp
      · have hstep : prepareStep acc a = acc ++ [a] := by simp [prepareStep, h1, h2]
        have hpa : (decide (a ≠ "" ∧ a ∉ acc)) = true := by simp [h1, h2]
        rw [hstep, hpa, prepare_uniq_go t (acc ++ [a])]
        simp only [if_true, dedupFirst, List.append_assoc, List.cons_append,
          List.nil_append]
        congr 2
        rw [List.filter_filter]
        congr 1
        apply List.filter_congr
        intro x _
        by_cases hx1 : x = "" <;> by_cases hx2 : x ∈ acc <;> by_cases hx3 : x = a <;>
          simp [hx1, hx2, hx3]

/-- C9: `_prepare_oracle_map_from_markets` returns a map with the single
key 0 whose value is the input list with empty entries dropped and
duplicates removed preserving first-occurrence order (`dedupFirst` is
the first-occurrence deduplication written from the claim's words);
hence the flattened per-wallet target list `run_for_markets` hands to
each worker contains each distinct market address at most once. -/
theorem prepare_oracle_map_spec (ms : List String) :
    _prepare_oracle_map_from_markets ms =
      [(0, dedupFirst (ms.filter (fun a => a ≠ "")))] ∧
    (prepare_uniq ms).Nodup ∧
    (∀ a, a ∈ prepare_uniq ms ↔ a ∈ ms ∧ a ≠ "") ∧
    run_for_markets_spenders ms = prepare_uniq ms := by
  have hu : prepare_uniq ms = dedupFirst (ms.filter (fun a => a ≠ "")) := by
    rw [prepare_uniq, prepare_uniq_go ms []]
    rw [List.nil_append]
    congr 1
    apply List.filter_congr
    intro x _
    simp
  refine ⟨?_, ?_, ?_, ?_⟩
  · rw [_prepare_oracle_map_from_markets, hu]
  · rw [hu]; exact nodup_dedupFirst _
  · intro a
    rw [hu, mem_dedupFirst, List.mem_filter]
    simp
  · simp [run_for_markets_spenders, _prepare_oracle_map_from_markets]

theorem prepare_oracle_map_spec_witness :
    (prepare_uniq ["a", "", "b", "a"]).Nodup ∧
    ("b" ∈ prepare_uniq ["a", "", "b", "a"] ↔
      "b" ∈ ["a", "", "b", "a"] ∧ "b" ≠ "") :=
  ⟨(prepare_oracle_map_spec ["a", "", "b", "a"]).2.1,
    (prepare_oracle_map_spec ["a", "", "b", "a"]).2.2.1 "b"⟩

/-! ### Key-loading lemmas -/

lemma isPrefixOf_0x (s : List Char) :
    List.isPrefixOf ['0', 'x'] (['0', 'x'] ++ s) = true := by
  simp [List.isPrefixOf]

lemma load_keys_go :
    ∀ (lines : List (List Char)) (acc : List (List Char)),
      lines.foldl loadKeyStep acc =
        acc ++ ((lines.map pyStrip).filter (fun s => s ≠ [])).map
          (fun s => if List.isPrefixOf ['0', 'x'] s then s else ['0', 'x'] ++ s)
  | [], acc => by simp
  | line :: rest, acc => by
    rw [List.foldl_cons, List.map_cons, List.filter_cons]
    by_cases h : pyStrip line = []
    · have hstep : loadKeyStep acc line = acc := by simp [loadKeyStep, h]
      have hp : (decide (pyStrip line ≠ [])) = false := by simp [h]
      rw [hstep, hp, load_keys_go rest acc]
      simp
    · have hstep : loadKeyStep acc line =
          acc ++ [if List.isPrefixOf ['0', 'x'] (pyStrip line) then pyStrip line
                  else ['0', 'x'] ++ pyStrip line] := by
        simp [loadKeyStep, h]
      have hp : (decide (pyStrip line ≠ [])) = true := by simp [h]
      rw [hstep, hp, load_keys_go rest _]
      simp

/-- C10: `load_private_keys` returns, in file order, every non-blank
line stripped, with `"0x"` prepended when the stripped line does not
already start with `"0x"`; blank lines contribute nothing, and every
returned key starts with `"0x"`. -/
theorem load_private_keys_spec (lines : List (List Char)) :
    load_private_keys lines =
      ((lines.map pyStrip).filter (fun s => s ≠ [])).map
        (fun s => if List.isPrefixOf ['0', 'x'] s then s else ['0', 'x'] ++ s) ∧
    ∀ k ∈ load_private_keys lines, List.isPrefixOf ['0', 'x'] k = true := by
  have h : load_private_keys lines =
      ((lines.map pyStrip).filter (fun s => s ≠ [])).map
        (fun s => if List.isPrefixOf ['0', 'x'] s then s else ['0', 'x'] ++ s) := by
    rw [load_private_keys, load_keys_go lines []]
    rw [List.nil_append]
  refine ⟨h, ?_⟩
  intro k hk
  rw [h] at hk
  rcases List.mem_map.1 hk with ⟨s, _, rfl⟩
  by_cases hp : List.isPrefixOf ['0', 'x'] s = true
  · simp [hp]
  · simp only [Bool.not_eq_true] at hp
    simp [hp, isPrefixOf_0x]

theorem load_private_keys_spec_witness :
    List.isPrefixOf ['0', 'x'] ['0', 'x', 'a'] = true :=
  (load_private_keys_spec [['a']]).2 ['0', 'x', 'a'] (by decide)

end Batch
